import Mathlib

/-!
Shallow embedding of the radar-ambiguity calculator
(`source/functions.py` and the driving loop in `source/radarconf.py`)
over the real numbers, followed by theorems about the embedded program.

Conventions of the embedding:
- numpy double arithmetic is modelled by exact real arithmetic (`ℝ`);
- a numpy operation whose float result is NaN (square root of a negative
  number, `0/0`) is modelled by `Option ℝ`, with `none` standing for NaN;
  numpy emits a warning in these cases and continues, it never raises;
- matrices whose columns are 3-vectors are modelled as `List (ℝ × ℝ × ℝ)`
  (one entry per column); stacked-row systems use `Matrix (Fin m) (Fin 3) ℝ`;
- `np.linalg.pinv` is an external numpy routine (SVD-based); wherever the
  source calls it, the embedding takes the pseudo-inverse matrix as an
  explicit argument, exactly as the source's own
  `mooore_penrose_solution_ptr` does;
- the result buffers filled by `mooore_penrose_solution_ptr` are modelled
  as functions `ℕ → α` updated slot by slot.
-/

/-- The offset range `range(1, int(k_length) + 1)` = `{1, …, k}`. -/
def rangeK (k : ℕ) : List ℕ := List.range' 1 k

/-- Stage-3 candidate enumeration from `radarconf.py` lines 74–75:
`itertools.product` of the three offset ranges, rightmost index fastest. -/
def PERMS_J3 (k1 k2 k3 : ℕ) : List (ℕ × ℕ × ℕ) :=
  (rangeK k1).flatMap (fun a => (rangeK k2).flatMap (fun b =>
    (rangeK k3).map (fun c => (a, b, c))))

/-- `permutations_create` from `functions.py` (and `radarconf.py` lines
151–152): `itertools.product` of the surviving candidates with the next
offset range — each survivor paired with each offset, survivor-major order. -/
def permutations_create {α : Type} (survivors : List α) (k_length : ℕ) :
    List (α × ℕ) :=
  survivors.flatMap (fun s => (rangeK k_length).map (fun o => (s, o)))

/-- Writing `f i` into slot `i` of an index-addressed buffer for every `i`
in the given index list, in order (the buffer-filling loop of
`mooore_penrose_solution_ptr`). -/
def fillList {α : Type} (f : ℕ → α) (buf : ℕ → α) (l : List ℕ) : ℕ → α :=
  l.foldl (fun b i => Function.update b i (f i)) buf

/-- Chunk size used by `mooore_penrose_solution_par`:
`int(niter/pnum)` when `pnum` divides `niter`, else `niter//pnum + 1`. -/
def subset_size (niter pnum : ℕ) : ℕ :=
  if niter % pnum = 0 then niter / pnum else niter / pnum + 1

/-- Index range assigned to worker `job_id` by `mooore_penrose_solution_par`:
`range(job_id*subset, min((job_id+1)*subset, niter))`. -/
def job_range (subset niter job_id : ℕ) : List ℕ :=
  List.range' (job_id * subset) (min subset (niter - job_id * subset))

/-- All worker index ranges spawned for a stage.  The source's while/for
loop spawns exactly `pnum` workers whenever `niter > 0` (after the first
batch of `pnum` threads, `job_id*subset ≥ niter` ends the loop) and none
when `niter = 0`; in the latter case all `pnum` chunks here are empty,
with identical buffer effect. -/
def job_ranges (niter pnum : ℕ) : List (List ℕ) :=
  (List.range pnum).map (job_range (subset_size niter pnum) niter)

noncomputable section

open Classical

/-- Residual tolerance hardcoded at the top of `intersections_cal`
(`mp_tol = 0.1` in `functions.py`). -/
def mp_tol : ℝ := 0.1

/-- Euclidean norm of a 3-vector, as `np.linalg.norm` of a column
(`sqrt` of a sum of squares). -/
def colNorm (v : ℝ × ℝ × ℝ) : ℝ := Real.sqrt (v.1 ^ 2 + v.2.1 ^ 2 + v.2.2 ^ 2)

/-- numpy scalar division: `none` models the NaN/inf that division by `0`
produces (numpy warns and continues, it does not raise). -/
def npDiv (x y : ℝ) : Option ℝ := if y = 0 then none else some (x / y)

/-- numpy square root: `none` models the NaN that `np.sqrt` of a negative
argument produces (numpy warns and continues, it does not raise). -/
def npSqrt (x : ℝ) : Option ℝ := if x < 0 then none else some (Real.sqrt x)

/-- `R_cal` from `functions.py`: stacks the first `sensor_groups` sub-group
coordinates as columns `(x, y, 0)` (third row multiplied by zero). -/
def R_cal (sensor_groups : ℕ) (xycoords : List (ℝ × ℝ)) : List (ℝ × ℝ × ℝ) :=
  (xycoords.take sensor_groups).map (fun p => (p.1, p.2, 0))

/-- `linCoeff_cal` from `functions.py`: per column, `sum(R**2) / norm(R)`.
A zero-norm column divides `0` by `0`, which numpy turns into NaN (`none`). -/
def linCoeff_cal (R : List (ℝ × ℝ × ℝ)) : List (Option ℝ) :=
  R.map (fun v => npDiv (v.1 ^ 2 + v.2.1 ^ 2 + v.2.2 ^ 2) (colNorm v))

/-- The geometry-building phase as invoked by the driver: `R_cal` followed
by `linCoeff_cal`.  The source performs no validation whatsoever — no
baseline-count check and no zero-norm check — and defines no
`InvalidGeometryError`; the `Except` result type models the possibility of
raising, and since nothing in the source raises, the result is always
`Except.ok`. -/
def buildGeometry (sensor_groups : ℕ) (xycoords : List (ℝ × ℝ)) :
    Except String (List (ℝ × ℝ × ℝ) × List (Option ℝ)) :=
  let R := R_cal sensor_groups xycoords
  Except.ok (R, linCoeff_cal R)

/-- Seed-stage (stage 3) pruning condition, from `intersections_cal` with
the `norm` keyword (`functions.py`) and from `radarconf.py` line 118:
`(pinv_norm < mp_tol) & (norm <= 2) & (norm != 0)`. -/
def seed_keep (r n : ℝ) : Prop := r < mp_tol ∧ n ≤ 2 ∧ n ≠ 0

/-- Later-stage pruning condition, from `intersections_cal` without the
`norm` keyword and from `radarconf.py` line 181: `pinv_norm < mp_tol`. -/
def later_keep (r : ℝ) : Prop := r < mp_tol

/-- Euclidean norm of an `m`-vector, as `np.linalg.norm`. -/
def vecNorm {m : ℕ} (v : Fin m → ℝ) : ℝ := Real.sqrt (∑ i, v i ^ 2)

/-- `mooore_penrose_solution` from `functions.py`: solution
`np.dot(Wpinv, b)` and residual `norm(W @ Wpinv @ b - b)`, where `Wpinv`
is numpy's `np.linalg.pinv(W)`, here an explicit argument. -/
def mooore_penrose_solution {m : ℕ} (W : Matrix (Fin m) (Fin 3) ℝ)
    (Wpinv : Matrix (Fin 3) (Fin m) ℝ) (b : Fin m → ℝ) : (Fin 3 → ℝ) × ℝ :=
  (Wpinv.mulVec b, vecNorm (W.mulVec (Wpinv.mulVec b) - b))

/-- `mooore_penrose_solution_ptr` from `functions.py`: for each index in
`ind_range`, writes the solution column into `intersection_line_set` and
the residual into `pinv_norm_set`; returns the two updated buffers. -/
def mooore_penrose_solution_ptr {m : ℕ} (W : Matrix (Fin m) (Fin 3) ℝ)
    (Wpinv : Matrix (Fin 3) (Fin m) ℝ) (b_set : ℕ → Fin m → ℝ)
    (intersection_line_set : ℕ → Fin 3 → ℝ) (pinv_norm_set : ℕ → ℝ)
    (ind_range : List ℕ) : (ℕ → Fin 3 → ℝ) × (ℕ → ℝ) :=
  (fillList (fun ind => Wpinv.mulVec (b_set ind)) intersection_line_set
      ind_range,
   fillList (fun ind => vecNorm (W.mulVec (Wpinv.mulVec (b_set ind)) -
      b_set ind)) pinv_norm_set ind_range)

/-- `mooore_penrose_solution_par` from `functions.py`: spawns one worker
per job range, each running `mooore_penrose_solution_ptr` on its chunk.
Workers write to disjoint slots, so the concurrent execution is modelled
as folding the per-chunk buffer updates in chunk order (`Wpinv`, computed
in the source as `np.linalg.pinv(W)`, is an explicit argument). -/
def mooore_penrose_solution_par {m : ℕ} (W : Matrix (Fin m) (Fin 3) ℝ)
    (Wpinv : Matrix (Fin 3) (Fin m) ℝ) (b_set : ℕ → Fin m → ℝ)
    (pnum niter : ℕ) (intersection_line_set : ℕ → Fin 3 → ℝ)
    (pinv_norm_set : ℕ → ℝ) : (ℕ → Fin 3 → ℝ) × (ℕ → ℝ) :=
  (job_ranges niter pnum).foldl
    (fun bufs l =>
      mooore_penrose_solution_ptr W Wpinv b_set bufs.1 bufs.2 l)
    (intersection_line_set, pinv_norm_set)

/-- `np.radians`: degrees to radians. -/
def np_radians (x : ℝ) : ℝ := x * Real.pi / 180

/-- `k0_cal` from `functions.py`: the wave vector from elevation and
azimuth in degrees. -/
def k0_cal (el0 az0 : ℝ) : ℝ × ℝ × ℝ :=
  (Real.sin (np_radians az0) * Real.cos (np_radians el0),
   Real.cos (np_radians az0) * Real.cos (np_radians el0),
   Real.sin (np_radians el0))

/-- Planar distance computed by `slines_intersections`: the Euclidean norm
of `(k0_x, k0_y) - (s_x, s_y)`. -/
def planar_dist (k0 s : ℝ × ℝ × ℝ) : ℝ :=
  Real.sqrt ((k0.1 - s.1) ^ 2 + (k0.2.1 - s.2.1) ^ 2)

/-- `slines_intersections` from `functions.py`: `np.where` of the test
`planar distance ≤ sin(cutoff)` over the selected solution columns;
returns positions into `intersections_ind`. -/
def slines_intersections (k0 : ℝ × ℝ × ℝ) (intersections_ind : List ℕ)
    (intersection_line : List (ℝ × ℝ × ℝ)) (cutoff_ph_ang : ℝ) : List ℕ :=
  (List.range intersections_ind.length).filter (fun i =>
    planar_dist k0
        (intersection_line.getD (intersections_ind.getD i 0) (0, 0, 0)) ≤
      Real.sin cutoff_ph_ang)

/-- One element of the steering response in `explicit`:
`exp(-1j * 2 * pi * (x*dir_x + y*dir_y))` for a sub-group at `(x, y)`. -/
def steer (p : ℝ × ℝ) (dx dy : ℝ) : ℂ :=
  Complex.exp (-Complex.I * (2 * Real.pi) * (p.1 * dx + p.2 * dy))

/-- One column of `k_finds` in `explicit` (lines 267–270 of
`functions.py`): `aux1 = (k0_x, k0_y) - (s_x, s_y)` and
`aux2 = np.sqrt(1 - aux1_x² - aux1_y²)`, stacked. -/
def k_find (k0 s : ℝ × ℝ × ℝ) : ℝ × ℝ × Option ℝ :=
  (k0.1 - s.1, k0.2.1 - s.2.1,
   npSqrt (1 - (k0.1 - s.1) ^ 2 - (k0.2.1 - s.2.1) ^ 2))

/-- The ambiguous-direction reconstruction as the spec words it: third
direction cosine `sqrt(1 - s_x² - s_y²)` computed from the surviving
point's own first two components, giving the direction `(s_x, s_y, s_z)`.
Stated only for comparison with `k_find`, the reconstruction the source
actually performs. -/
def k_find_spec (s : ℝ × ℝ × ℝ) : ℝ × ℝ × Option ℝ :=
  (s.1, s.2.1, npSqrt (1 - s.1 ^ 2 - s.2.1 ^ 2))

/-- Euclidean distance between the steering response at `k0` and at the
ambiguous direction with planar components `(dx, dy)`, per column of
`ambiguity_distances_explicit` (`np.linalg.norm` along axis 0). -/
def ambiguity_distance (xy : List (ℝ × ℝ)) (k0 : ℝ × ℝ × ℝ)
    (dx dy : ℝ) : ℝ :=
  Real.sqrt ((xy.map (fun p =>
    Complex.abs (steer p k0.1 k0.2.1 - steer p dx dy) ^ 2)).sum)

/-- `explicit` from `functions.py`: selects the cap-surviving solution
columns, builds `k_finds`, and computes the per-ambiguity distances
between the steering response at `k0` and at each ambiguous direction.
Only the first two components of each `k_finds` column enter the steering
response.  Returns `(ambiguity_distances_explicit, k_finds)`; the
normalized-difference output `ambiguity_normal_explicit` is used by no
claim and is not modelled. -/
def explicit (intersection_line : List (ℝ × ℝ × ℝ))
    (intersections_ind : List ℕ) (cap_intersections_of_slines : List ℕ)
    (xy : List (ℝ × ℝ)) (k0 : ℝ × ℝ × ℝ) :
    List ℝ × List (ℝ × ℝ × Option ℝ) :=
  let s_sel := cap_intersections_of_slines.map (fun c =>
    intersection_line.getD (intersections_ind.getD c 0) (0, 0, 0))
  let k_finds := s_sel.map (k_find k0)
  (k_finds.map (fun kf => ambiguity_distance xy k0 kf.1 kf.2.1), k_finds)

end

theorem rangeK_mem (k o : ℕ) : o ∈ rangeK k ↔ 1 ≤ o ∧ o ≤ k := by
  simp only [rangeK, List.mem_range']
  constructor
  · rintro ⟨i, hi, rfl⟩
    omega
  · rintro ⟨h1, h2⟩
    exact ⟨o - 1, by omega, by omega⟩

theorem rangeK_length (k : ℕ) : (rangeK k).length = k := by
  simp [rangeK]

theorem rangeK_nodup (k : ℕ) : (rangeK k).Nodup := by
  simp [rangeK]
  exact List.nodup_range' 1 k

theorem permutations_create_eq_product {α : Type} (survivors : List α)
    (k : ℕ) : permutations_create survivors k = survivors ×ˢ rangeK k := rfl

theorem PERMS_J3_eq_product (k1 k2 k3 : ℕ) :
    PERMS_J3 k1 k2 k3 = rangeK k1 ×ˢ (rangeK k2 ×ˢ rangeK k3) := by
  simp only [PERMS_J3, SProd.sprod, List.product, List.map_flatMap,
    List.map_map, Function.comp_def]

theorem count_map_pair {α β : Type} [DecidableEq α] [DecidableEq β]
    (l2 : List β) (a : α) (o : β) :
    (l2.map (fun b => (a, b))).count (a, o) = l2.count o := by
  induction l2 with
  | nil => simp
  | cons x xs ihx => simp [List.count_cons, ihx]

theorem count_sprod {α β : Type} [DecidableEq α] [DecidableEq β]
    (l1 : List α) (l2 : List β) (s : α) (o : β) :
    (l1 ×ˢ l2).count (s, o) = l1.count s * l2.count o := by
  induction l1 with
  | nil => simp
  | cons a t ih =>
    have hcons : ((a :: t) ×ˢ l2) = l2.map (fun b => (a, b)) ++ t ×ˢ l2 := rfl
    rcases eq_or_ne a s with rfl | hne
    · rw [hcons, List.count_append, ih, count_map_pair l2 a o,
        List.count_cons_self]
      ring
    · have hzero : (l2.map (fun b => (a, b))).count (s, o) = 0 := by
        refine List.count_eq_zero.2 ?_
        intro hmem
        obtain ⟨b, -, hb⟩ := List.mem_map.1 hmem
        exact hne (congrArg Prod.fst hb)
      rw [hcons, List.count_append, ih, hzero,
        List.count_cons_of_ne hne.symm]
      omega

/-- C5 — The candidate enumeration is structurally exact: stage 3 is the
full Cartesian product `{1..k1} × {1..k2} × {1..k3}` (`k1*k2*k3`
candidates, no repetition), and `permutations_create` pairs each survivor
with each offset in `{1..k}` exactly once: the multiplicity of `(s, o)` in
its output equals the multiplicity of `s` among the survivors when
`1 ≤ o ≤ k`, and is that times the (0-or-1) multiplicity of `o` in the
offset range in general. -/
theorem C5_enumeration_exact (k1 k2 k3 : ℕ) (c : ℕ × ℕ × ℕ)
    {α : Type} [DecidableEq α] (survivors : List α) (k : ℕ) (s : α) (o : ℕ) :
    ((PERMS_J3 k1 k2 k3).length = k1 * k2 * k3 ∧
      (c ∈ PERMS_J3 k1 k2 k3 ↔
        (1 ≤ c.1 ∧ c.1 ≤ k1) ∧ (1 ≤ c.2.1 ∧ c.2.1 ≤ k2) ∧
          (1 ≤ c.2.2 ∧ c.2.2 ≤ k3)) ∧
      (PERMS_J3 k1 k2 k3).Nodup) ∧
    ((permutations_create survivors k).length = survivors.length * k ∧
      ((s, o) ∈ permutations_create survivors k ↔
        s ∈ survivors ∧ 1 ≤ o ∧ o ≤ k) ∧
      (permutations_create survivors k).count (s, o) =
        survivors.count s * (rangeK k).count o) := by
  obtain ⟨a, b, c⟩ := c
  refine ⟨⟨?_, ?_, ?_⟩, ?_, ?_, ?_⟩
  · rw [PERMS_J3_eq_product, List.length_product, List.length_product,
      rangeK_length, rangeK_length, rangeK_length, Nat.mul_assoc]
  · rw [PERMS_J3_eq_product]
    simp only [List.mem_product, rangeK_mem]
  · rw [PERMS_J3_eq_product]
    exact (rangeK_nodup k1).product ((rangeK_nodup k2).product (rangeK_nodup k3))
  · rw [permutations_create_eq_product, List.length_product, rangeK_length]
  · rw [permutations_create_eq_product]
    simp only [List.mem_product, rangeK_mem]
  · rw [permutations_create_eq_product, count_sprod]

/-- C3 — At the seed stage a candidate survives iff its residual is below
`mp_tol` and its solution-vector norm lies in `(0, 2]` (the source's
`norm ≤ 2` and `norm ≠ 0` tests are equivalent to `norm ∈ (0, 2]` because
the norm is a square root, hence nonnegative); at every later stage a
candidate survives iff its residual is below `mp_tol`, with no norm
condition. -/
theorem C3_pruning_conditions :
    (∀ (r : ℝ) (v : ℝ × ℝ × ℝ),
      seed_keep r (colNorm v) ↔
        r < mp_tol ∧ 0 < colNorm v ∧ colNorm v ≤ 2) ∧
    (∀ r : ℝ, later_keep r ↔ r < mp_tol) := by
  constructor
  · intro r v
    have h0 : 0 ≤ colNorm v := Real.sqrt_nonneg _
    unfold seed_keep
    constructor
    · rintro ⟨h1, h2, h3⟩
      exact ⟨h1, lt_of_le_of_ne h0 (Ne.symm h3), h2⟩
    · rintro ⟨h1, h2, h3⟩
      exact ⟨h1, h3, ne_of_gt h2⟩
  · intro r
    exact Iff.rfl

/-- C8 counterexample — the pruning predicate is not comparison against a
configured tolerance: with a configured tolerance of `0.2` and a residual
of `0.15`, the residual is below the configured tolerance yet the pruning
predicate (comparison against the hardcoded `mp_tol = 0.1`) rejects it. -/
theorem C8_counterexample : ¬ (later_keep 0.15 ↔ (0.15 : ℝ) < 0.2) := by
  intro h
  have h1 : later_keep 0.15 := h.2 (by norm_num)
  unfold later_keep mp_tol at h1
  norm_num at h1

/-- C8 amended — the residual tolerance used by the survivor-pruning step
is the fixed constant `0.1` hardcoded inside `intersections_cal`, not a
caller-configurable parameter: every pruning comparison, at the seed stage
and at later stages, is against `0.1`. -/
theorem C8_fixed_tolerance :
    mp_tol = 1 / 10 ∧ (∀ r : ℝ, later_keep r ↔ r < 1 / 10) ∧
    ∀ r n : ℝ, seed_keep r n → r < 1 / 10 := by
  have hm : mp_tol = 1 / 10 := by
    unfold mp_tol
    norm_num
  refine ⟨hm, fun r => ?_, fun r n h => ?_⟩
  · unfold later_keep
    rw [hm]
  · rw [← hm]
    exact h.1

/-- C10 — the wave vector returned by `k0_cal` is a unit vector: the sum
of the squares of its three components is exactly `1`, by
`sin² + cos² = 1` at both converted angles. -/
theorem C10_k0_unit (el0 az0 : ℝ) :
    (k0_cal el0 az0).1 ^ 2 + (k0_cal el0 az0).2.1 ^ 2 +
      (k0_cal el0 az0).2.2 ^ 2 = 1 := by
  have h1 := Real.sin_sq_add_cos_sq (np_radians az0)
  have h2 := Real.sin_sq_add_cos_sq (np_radians el0)
  simp only [k0_cal]
  nlinarith [h1, h2]

/-- C2 counterexample — building the geometry does not fail: with only 2
baselines it returns normally, and with 3 baselines one of which is the
zero vector it also returns normally, the zero-norm baseline's linear
coefficient being NaN (`none`) from the `0/0` division rather than a
surfaced error. -/
theorem C2_counterexample :
    (buildGeometry 2 [((1 : ℝ), 0), (0, 1)]).isOk = true ∧
    (buildGeometry 3 [((1 : ℝ), 0), (0, 0), (0, 1)]).isOk = true ∧
    (linCoeff_cal (R_cal 3 [((1 : ℝ), 0), (0, 0), (0, 1)])).getD 1
      (some 1) = none := by
  refine ⟨rfl, rfl, ?_⟩
  have hnorm : colNorm (0 : ℝ × ℝ × ℝ) = 0 := by
    unfold colNorm
    simp
  simp [linCoeff_cal, R_cal, npDiv, hnorm]

/-- C2 amended — building the baseline geometry never fails: for every
baseline count and coordinate list it returns normally (no
`InvalidGeometryError` exists in the source and no validation is
performed); a division by a zero baseline norm yields NaN (`none`) and the
computation proceeds. -/
theorem C2_no_validation :
    (∀ (sg : ℕ) (xy : List (ℝ × ℝ)), (buildGeometry sg xy).isOk = true) ∧
    ∀ x : ℝ, npDiv x 0 = none := by
  refine ⟨fun sg xy => rfl, fun x => ?_⟩
  unfold npDiv
  simp

/-- C4 — the solver returns exactly the pair
`(x, r) = (Wpinv·b, ‖W·Wpinv·b − b‖₂)`, and consequently re-substituting
the returned solution reproduces `b` to within the returned residual:
`‖W·x − b‖₂ = r`. -/
theorem C4_solver_consistency {m : ℕ} (W : Matrix (Fin m) (Fin 3) ℝ)
    (Wpinv : Matrix (Fin 3) (Fin m) ℝ) (b : Fin m → ℝ) :
    (mooore_penrose_solution W Wpinv b).1 = Wpinv.mulVec b ∧
    (mooore_penrose_solution W Wpinv b).2 =
      vecNorm (W.mulVec (Wpinv.mulVec b) - b) ∧
    vecNorm (W.mulVec (mooore_penrose_solution W Wpinv b).1 - b) =
      (mooore_penrose_solution W Wpinv b).2 :=
  ⟨rfl, rfl, rfl⟩

theorem planar_dist_le_zero_iff (k0 s : ℝ × ℝ × ℝ) :
    planar_dist k0 s ≤ 0 ↔ s.1 = k0.1 ∧ s.2.1 = k0.2.1 := by
  unfold planar_dist
  constructor
  · intro h
    have hs := Real.sqrt_eq_zero'.1 (le_antisymm h (Real.sqrt_nonneg _))
    have e1 : (k0.1 - s.1) ^ 2 = 0 := by
      nlinarith [sq_nonneg (k0.1 - s.1), sq_nonneg (k0.2.1 - s.2.1)]
    have e2 : (k0.2.1 - s.2.1) ^ 2 = 0 := by
      nlinarith [sq_nonneg (k0.1 - s.1), sq_nonneg (k0.2.1 - s.2.1)]
    have f1 : k0.1 - s.1 = 0 := (pow_eq_zero_iff (by norm_num)).1 e1
    have f2 : k0.2.1 - s.2.1 = 0 := (pow_eq_zero_iff (by norm_num)).1 e2
    constructor <;> linarith
  · rintro ⟨h1, h2⟩
    rw [h1, h2]
    simp

/-- C9 — the cap filter returns exactly the positions whose solution point
has planar distance `‖(k0_x, k0_y) − (s_x, s_y)‖₂ ≤ sin θ` from `k0`; with
cutoff `θ = π/2` this is planar distance `≤ 1`, and with `θ = 0` only
exact planar matches pass. -/
theorem C9_cap_filter (k0 : ℝ × ℝ × ℝ) (ind : List ℕ)
    (line : List (ℝ × ℝ × ℝ)) (θ : ℝ) (i : ℕ) :
    (i ∈ slines_intersections k0 ind line θ ↔
      i < ind.length ∧
        planar_dist k0 (line.getD (ind.getD i 0) (0, 0, 0)) ≤ Real.sin θ) ∧
    (i ∈ slines_intersections k0 ind line (Real.pi / 2) ↔
      i < ind.length ∧
        planar_dist k0 (line.getD (ind.getD i 0) (0, 0, 0)) ≤ 1) ∧
    (i ∈ slines_intersections k0 ind line 0 ↔
      i < ind.length ∧
        (line.getD (ind.getD i 0) (0, 0, 0)).1 = k0.1 ∧
        (line.getD (ind.getD i 0) (0, 0, 0)).2.1 = k0.2.1) := by
  have hmem : ∀ c : ℝ, i ∈ slines_intersections k0 ind line c ↔
      i < ind.length ∧
        planar_dist k0 (line.getD (ind.getD i 0) (0, 0, 0)) ≤ Real.sin c := by
    intro c
    unfold slines_intersections
    simp [List.mem_filter, List.mem_range]
  refine ⟨hmem θ, ?_, ?_⟩
  · rw [hmem, Real.sin_pi_div_two]
  · rw [hmem, Real.sin_zero, planar_dist_le_zero_iff]

theorem fillList_not_mem {α : Type} (f : ℕ → α) (buf : ℕ → α) (l : List ℕ)
    (i : ℕ) (h : i ∉ l) : fillList f buf l i = buf i := by
  induction l generalizing buf with
  | nil => rfl
  | cons a t ih =>
    have hstep : fillList f buf (a :: t) =
        fillList f (Function.update buf a (f a)) t := rfl
    rw [hstep, ih _ (fun hm => h (List.mem_cons_of_mem a hm))]
    refine Function.update_noteq (fun he => h ?_) _ _
    rw [he]
    exact List.mem_cons_self a t

theorem fillList_mem {α : Type} (f : ℕ → α) (buf : ℕ → α) (l : List ℕ)
    (i : ℕ) (h : i ∈ l) : fillList f buf l i = f i := by
  induction l generalizing buf with
  | nil => cases h
  | cons a t ih =>
    by_cases ht : i ∈ t
    · exact ih _ ht
    · have hia : i = a := by
        rcases List.mem_cons.1 h with h1 | h2
        · exact h1
        · exact absurd h2 ht
      subst hia
      have hstep : fillList f buf (i :: t) =
          fillList f (Function.update buf i (f i)) t := rfl
      rw [hstep, fillList_not_mem _ _ _ _ ht]
      simp

theorem chunks_flatten (s n : ℕ) (p : ℕ) :
    (((List.range p).map
        (fun j => List.range' (j * s) (min s (n - j * s)))).flatten) =
      List.range' 0 (min (p * s) n) := by
  induction p with
  | zero => simp
  | succ p ih =>
    rw [List.range_succ, List.map_append, List.flatten_append]
    simp only [List.map_cons, List.map_nil, List.flatten_cons,
      List.flatten_nil, List.append_nil]
    rw [ih]
    rcases le_or_lt n (p * s) with h | h
    · have h2 : n - p * s = 0 := Nat.sub_eq_zero_of_le h
      have h3 : n ≤ (p + 1) * s := by
        refine le_trans h ?_
        rw [Nat.succ_mul]
        exact Nat.le_add_right _ _
      rw [Nat.min_eq_right h, h2]
      simp only [Nat.min_zero, List.range'_zero, List.append_nil]
      rw [Nat.min_eq_right h3]
    · rw [Nat.min_eq_left (le_of_lt h)]
      have happ := List.range'_append 0 (p * s) (min s (n - p * s)) 1
      simp only [one_mul, Nat.zero_add] at happ
      rw [happ]
      congr 1
      rw [Nat.succ_mul]
      generalize p * s = a at h ⊢
      omega

theorem job_ranges_flatten (niter pnum : ℕ) (hp : 1 ≤ pnum) :
    (job_ranges niter pnum).flatten = List.range niter := by
  have hcov : niter ≤ pnum * subset_size niter pnum := by
    unfold subset_size
    split
    next h =>
      rw [Nat.mul_div_cancel' (Nat.dvd_of_mod_eq_zero h)]
    next h =>
      have h1 := Nat.div_add_mod niter pnum
      have h2 : niter % pnum < pnum := Nat.mod_lt _ (by omega)
      have h3 : pnum * (niter / pnum + 1) =
          pnum * (niter / pnum) + pnum := by ring
      generalize pnum * (niter / pnum + 1) = B at h3 ⊢
      generalize pnum * (niter / pnum) = A at h1 h3
      generalize niter % pnum = r at h1 h2
      omega
  unfold job_ranges
  rw [show List.map (job_range (subset_size niter pnum) niter)
        (List.range pnum) =
      List.map (fun j => List.range' (j * subset_size niter pnum)
        (min (subset_size niter pnum)
          (niter - j * subset_size niter pnum))) (List.range pnum) from rfl]
  rw [chunks_flatten, Nat.min_eq_right hcov, List.range_eq_range']

theorem foldl_ptr_flatten {m : ℕ} (W : Matrix (Fin m) (Fin 3) ℝ)
    (Wpinv : Matrix (Fin 3) (Fin m) ℝ) (b_set : ℕ → Fin m → ℝ)
    (L : List (List ℕ)) (a : ℕ → Fin 3 → ℝ) (b : ℕ → ℝ) :
    L.foldl (fun bufs l =>
        mooore_penrose_solution_ptr W Wpinv b_set bufs.1 bufs.2 l) (a, b) =
      mooore_penrose_solution_ptr W Wpinv b_set a b L.flatten := by
  induction L generalizing a b with
  | nil => rfl
  | cons x t ih =>
    simp only [List.foldl_cons, List.flatten_cons]
    rw [ih]
    unfold mooore_penrose_solution_ptr fillList
    simp [List.foldl_append]

/-- C6 — for any worker count `pnum ≥ 1` the chunking is exact: the job
index ranges concatenate (in worker order) to exactly `0..niter-1`, hence
are pairwise disjoint with every slot written by exactly one worker, and
the parallel evaluation produces buffers identical in every slot to the
sequential evaluation of all `niter` candidates. -/
theorem C6_parallel_matches_sequential {m : ℕ}
    (W : Matrix (Fin m) (Fin 3) ℝ) (Wpinv : Matrix (Fin 3) (Fin m) ℝ)
    (b_set : ℕ → Fin m → ℝ) (ils : ℕ → Fin 3 → ℝ) (pns : ℕ → ℝ)
    (pnum niter : ℕ) (hp : 1 ≤ pnum) :
    (job_ranges niter pnum).flatten = List.range niter ∧
    List.Pairwise List.Disjoint (job_ranges niter pnum) ∧
    mooore_penrose_solution_par W Wpinv b_set pnum niter ils pns =
      mooore_penrose_solution_ptr W Wpinv b_set ils pns
        (List.range niter) := by
  have hf := job_ranges_flatten niter pnum hp
  refine ⟨hf, ?_, ?_⟩
  · have hnd : (job_ranges niter pnum).flatten.Nodup := by
      rw [hf]
      exact List.nodup_range niter
    exact (List.nodup_flatten.1 hnd).2
  · unfold mooore_penrose_solution_par
    rw [foldl_ptr_flatten, hf]

/-- Witness for C6: at `pnum = 2`, `niter = 5` and zero matrices and
buffers, the hypotheses hold and the conclusion is obtained from
`C6_parallel_matches_sequential`. -/
theorem C6_parallel_matches_sequential_witness :
    (job_ranges 5 2).flatten = List.range 5 ∧
    List.Pairwise List.Disjoint (job_ranges 5 2) ∧
    mooore_penrose_solution_par (0 : Matrix (Fin 1) (Fin 3) ℝ)
        (0 : Matrix (Fin 3) (Fin 1) ℝ) (fun _ => 0) 2 5 (fun _ => 0)
        (fun _ => 0) =
      mooore_penrose_solution_ptr (0 : Matrix (Fin 1) (Fin 3) ℝ)
        (0 : Matrix (Fin 3) (Fin 1) ℝ) (fun _ => 0) (fun _ => 0)
        (fun _ => 0) (List.range 5) :=
  C6_parallel_matches_sequential 0 0 (fun _ => 0) (fun _ => 0) (fun _ => 0)
    2 5 (by norm_num)

/-- C1 counterexample — the direction at which the evaluator computes the
steering response is not `(s_x, s_y, sqrt(1 − s_x² − s_y²))` built from the
surviving point's own components: for the surviving point
`s = (1/5, 0, 0)` and `k0 = (1/2, 0, 0)`, the `k_finds` column produced by
`explicit` (whose first component is `k0_x − s_x = 3/10`) differs from the
spec-worded reconstruction `k_find_spec s` (whose first component is
`s_x = 1/5`). -/
theorem C1_counterexample :
    (explicit [((1 : ℝ) / 5, 0, 0)] [0] [0] [((0 : ℝ), 0)]
        (1 / 2, 0, 0)).2.getD 0 (0, 0, none) ≠
      k_find_spec ((1 : ℝ) / 5, 0, 0) := by
  intro h
  have h1 := congrArg (fun t => t.1) h
  simp only [explicit, k_find, k_find_spec, List.map_cons, List.map_nil,
    List.getD_cons_zero] at h1
  norm_num at h1

/-- C1 amended — for each cap-surviving solution point `s`, the evaluator
reconstructs the ambiguous direction as
`(k0_x − s_x, k0_y − s_y, sqrt(1 − (k0_x−s_x)² − (k0_y−s_y)²))` — the
third direction cosine is computed from the planar difference `k0 − s`,
not from `s` itself — and evaluates the complex steering response
`response(dir) = exp(−i·2π·(x·dir_x + y·dir_y))` over the sub-group
coordinates at that difference direction. -/
theorem C1_evaluator_direction (line : List (ℝ × ℝ × ℝ)) (ind cap : List ℕ)
    (xy : List (ℝ × ℝ)) (k0 : ℝ × ℝ × ℝ) :
    ((explicit line ind cap xy k0).2 =
      cap.map (fun c =>
        let s := line.getD (ind.getD c 0) (0, 0, 0)
        (k0.1 - s.1, k0.2.1 - s.2.1,
          npSqrt (1 - (k0.1 - s.1) ^ 2 - (k0.2.1 - s.2.1) ^ 2)))) ∧
    ((explicit line ind cap xy k0).1 =
      (explicit line ind cap xy k0).2.map
        (fun kf => ambiguity_distance xy k0 kf.1 kf.2.1)) ∧
    (∀ (p : ℝ × ℝ) (dx dy : ℝ),
      steer p dx dy =
        Complex.exp (-Complex.I * (2 * Real.pi) *
          (p.1 * dx + p.2 * dy))) ∧
    (∀ dx dy : ℝ, ambiguity_distance xy k0 dx dy =
      Real.sqrt ((xy.map (fun p =>
        Complex.abs (steer p k0.1 k0.2.1 - steer p dx dy) ^ 2)).sum)) := by
  refine ⟨?_, rfl, fun p dx dy => rfl, fun dx dy => rfl⟩
  simp only [explicit, k_find, List.map_map, Function.comp_def]

/-- C7 counterexample — with `k0 = (2, 0, 0)` and surviving point
`(0, 0, 0)`, the reconstruction argument `1 − 2² − 0²` is negative, yet no
error is raised: `explicit` returns the ambiguity with a NaN (`none`)
third direction cosine among its results, and the ambiguity is not
excluded (the distance list still has one entry). -/
theorem C7_counterexample :
    (explicit [((0 : ℝ), 0, 0)] [0] [0] [((0 : ℝ), 0)] (2, 0, 0)).2 =
      [(2, 0, none)] ∧
    (explicit [((0 : ℝ), 0, 0)] [0] [0] [((0 : ℝ), 0)]
      (2, 0, 0)).1.length = 1 := by
  constructor
  · have hneg : ((1 : ℝ) - (2 - 0) ^ 2 - (0 - 0) ^ 2) < 0 := by norm_num
    simp only [explicit, k_find, npSqrt, List.map_cons, List.map_nil,
      List.getD_cons_zero, if_pos hneg]
    norm_num
  · rfl

/-- C7 amended — when a cap-surviving point's reconstruction argument is
negative, no `DomainError` is raised and the ambiguity is not excluded:
`explicit` always returns one distance and one direction per cap-surviving
point, and the out-of-domain direction's third cosine is silently the NaN
value (`none`) in the returned `k_finds`. -/
theorem C7_no_domain_error (line : List (ℝ × ℝ × ℝ)) (ind cap : List ℕ)
    (xy : List (ℝ × ℝ)) (k0 : ℝ × ℝ × ℝ) :
    ((explicit line ind cap xy k0).1.length = cap.length ∧
      (explicit line ind cap xy k0).2.length = cap.length) ∧
    ∀ kf ∈ (explicit line ind cap xy k0).2,
      1 - kf.1 ^ 2 - kf.2.1 ^ 2 < 0 → kf.2.2 = none := by
  refine ⟨⟨by simp [explicit], by simp [explicit]⟩, ?_⟩
  intro kf hkf hneg
  simp only [explicit, List.map_map, List.mem_map] at hkf
  obtain ⟨c, -, rfl⟩ := hkf
  unfold Function.comp k_find npSqrt
  rw [if_pos]
  exact hneg

/-- Witness for C7: at `k0 = (3, 0, 0)` and surviving point `(0, 0, 0)`
the reconstruction argument is negative, and
`C7_no_domain_error` yields that the returned third cosine is NaN. -/
theorem C7_no_domain_error_witness :
    ((explicit [((0 : ℝ), 0, 0)] [0] [0] [((0 : ℝ), 0)]
        (3, 0, 0)).2.getD 0 (0, 0, some 0)).2.2 = none := by
  have hm : k_find ((3 : ℝ), 0, 0) ((0 : ℝ), 0, 0) ∈
      (explicit [((0 : ℝ), 0, 0)] [0] [0] [((0 : ℝ), 0)] (3, 0, 0)).2 := by
    simp [explicit]
  have hneg : (1 : ℝ) - (k_find ((3 : ℝ), 0, 0) ((0 : ℝ), 0, 0)).1 ^ 2 -
      (k_find ((3 : ℝ), 0, 0) ((0 : ℝ), 0, 0)).2.1 ^ 2 < 0 := by
    unfold k_find
    norm_num
  exact (C7_no_domain_error [((0 : ℝ), 0, 0)] [0] [0] [((0 : ℝ), 0)]
    (3, 0, 0)).2 _ hm hneg

/-- Witness for C8: the residual `0.05` with solution norm `1` passes the
seed-stage pruning condition, and `C8_fixed_tolerance` places it below the
hardcoded `0.1`. -/
theorem C8_fixed_tolerance_witness :
    seed_keep 0.05 1 ∧ (0.05 : ℝ) < 1 / 10 := by
  have hs : seed_keep 0.05 1 := by
    unfold seed_keep mp_tol
    norm_num
  exact ⟨hs, C8_fixed_tolerance.2.2 0.05 1 hs⟩
